import Mathlib

/-!
Shallow embedding of the analysis core of `Vibrational_Analysis.py`
(beam vibration processor).  Python floats are modelled as rationals
(exact arithmetic), numpy arrays as lists, and a Python exception as
the `none` value of an `Option` result.
-/

namespace VibrationalAnalysis

/-- Embeds `amp = np.abs(data); amp.max()` used inside `crop_signal`.
For a non-empty list this is the maximum of the absolute values
(the fold base `0` never exceeds an absolute value). -/
def ampMax (data : List ℚ) : ℚ :=
  (data.map (fun x => |x|)).foldr max 0

/-- Embeds `idx = np.where(amp > thresh)[0]` from `crop_signal`
(line 46): the ascending list of indices whose absolute value strictly
exceeds `frac * amp.max()`. -/
def exceedIdx (data : List ℚ) (frac : ℚ) : List ℕ :=
  (List.range data.length).filter (fun i => decide (frac * ampMax data < |data.getD i 0|))

/-- Embeds `crop_signal` (lines 43-47).  The Python code indexes
`idx[0]` and `idx[-1]` and raises `IndexError` when `idx` is empty
(and `amp.max()` raises on an empty array); both failure paths are
modelled as `none`.  The slice `x[a : b+1]` is `(x.drop a).take (b+1-a)`. -/
def crop_signal (time data : List ℚ) (frac : ℚ) : Option (List ℚ × List ℚ) :=
  match (exceedIdx data frac).head?, (exceedIdx data frac).getLast? with
  | some i0, some i1 =>
      some ((time.drop i0).take (i1 + 1 - i0), (data.drop i0).take (i1 + 1 - i0))
  | _, _ => none

/-- Embeds `find_crossings` (lines 49-54): the loop
`for i in range(1, len(data)): if data[i-1]*data[i] < 0: xs.append(time[i])`.
The iteration range is written `range len(data)` with an explicit `1 ≤ i`
guard, which is the same index set. -/
def find_crossings (time data : List ℚ) : List ℚ :=
  (List.range data.length).foldl
    (fun xs i =>
      if 1 ≤ i ∧ data.getD (i - 1) 0 * data.getD i 0 < 0 then xs ++ [time.getD i 0] else xs)
    []

/-- The index set of crossings: adjacent positions whose signal product is
strictly negative.  Used to state what `find_crossings` returns. -/
def crossingIdx (data : List ℚ) : List ℕ :=
  (List.range data.length).filter
    (fun i => decide (1 ≤ i ∧ data.getD (i - 1) 0 * data.getD i 0 < 0))

/-- Embeds `calc_frequency` (lines 56-58):
`cycles = (n_cross-1)/2 if n_cross > 1 else 0;
 return cycles/t_period if t_period > 0 else 0`. -/
def calc_frequency (n_cross : ℤ) (t_period : ℚ) : ℚ :=
  let cycles : ℚ := if 1 < n_cross then ((n_cross : ℚ) - 1) / 2 else 0
  if 0 < t_period then cycles / t_period else 0

/-- Embeds `calc_youngs_modulus` (lines 60-63).  Python float division by
zero raises `ZeroDivisionError`; the `I = 0` case is therefore `none`. -/
def calc_youngs_modulus (f b h rho I L : ℚ) : Option ℚ :=
  if I = 0 then none
  else
    let q := rho * b * h
    let E := ((f / 0.56) ^ 2 * q * L ^ 4) / I
    some (E / 1e9)

/-- Embeds `I_moment = lambda b, h: (b*h**3)/12` (line 100). -/
def I_moment (b h : ℚ) : ℚ := (b * h ^ 3) / 12

/-- One step of the per-trial accumulation in `main` (lines 110-129):
a missing file (`none`) leaves both lists unchanged, otherwise the
modulus of the trial result `(freq, Evalue)` is appended to the
global list and to the per-length list. -/
def processTrial (s : List ℚ × List ℚ) (r : Option (ℚ × ℚ)) : List ℚ × List ℚ :=
  match r with
  | none => s
  | some fe => (s.1 ++ [fe.2], s.2 ++ [fe.2])

/-- The inner trial loop of `main` for one beam length: starts from the
incoming global list and an empty `this_length_E`. -/
def processLength (allE : List ℚ) (trialResults : List (Option (ℚ × ℚ))) :
    List ℚ × List ℚ :=
  trialResults.foldl processTrial (allE, [])

/-- Embeds `if this_length_E: avg_E = sum(this_length_E)/len(this_length_E)`
(lines 156-158); `none` means no average row is emitted. -/
def lengthRow (thisE : List ℚ) : Option ℚ :=
  if thisE = [] then none else some (thisE.sum / (thisE.length : ℚ))

/-- One iteration of the outer loop of `main` over beam lengths: run the
trial loop for this length starting from the global list so far, then
append the length-average row (if any) to the emitted rows. -/
def lengthStep (st : List ℚ × List (Option ℚ)) (rs : List (Option (ℚ × ℚ))) :
    List ℚ × List (Option ℚ) :=
  let p := processLength st.1 rs
  (p.1, st.2 ++ [lengthRow p.2])

/-- Embeds the aggregation skeleton of `main` (lines 107-163) with the
per-trial pipeline abstracted into its outcome: for each length, a list
of trial outcomes (`none` = missing input file, `some (freq, Evalue)` =
processed trial).  Returns the emitted per-length average rows (in
order, `none` where nothing is emitted) and the overall average row. -/
def aggregate (results : List (List (Option (ℚ × ℚ)))) :
    List (Option ℚ) × Option ℚ :=
  let st := results.foldl lengthStep (([] : List ℚ), ([] : List (Option ℚ)))
  (st.2, lengthRow st.1)

/-- Spec-side view: the modulus values of exactly the non-skipped trials
of one length, in trial order. -/
def succeededModuli (trialResults : List (Option (ℚ × ℚ))) : List ℚ :=
  (trialResults.filterMap id).map Prod.snd

/-- Spec-side view: the unweighted arithmetic mean, emitted only for a
non-empty collection. -/
def meanOpt (xs : List ℚ) : Option ℚ :=
  if xs = [] then none else some (xs.sum / (xs.length : ℚ))

lemma ampMax_cons (x : ℚ) (xs : List ℚ) : ampMax (x :: xs) = max |x| (ampMax xs) := rfl

lemma ampMax_nonneg (data : List ℚ) : 0 ≤ ampMax data := by
  induction data with
  | nil => exact le_refl 0
  | cons y ys ih => rw [ampMax_cons]; exact le_trans ih (le_max_right _ _)

lemma le_ampMax {data : List ℚ} {x : ℚ} (hx : x ∈ data) : |x| ≤ ampMax data := by
  induction data with
  | nil => cases hx
  | cons y ys ih =>
    rw [ampMax_cons]
    rcases List.mem_cons.mp hx with rfl | h
    · exact le_max_left _ _
    · exact le_trans (ih h) (le_max_right _ _)

lemma ampMax_le {data : List ℚ} {c : ℚ} (h0 : 0 ≤ c) (h : ∀ x ∈ data, |x| ≤ c) :
    ampMax data ≤ c := by
  induction data with
  | nil => exact h0
  | cons y ys ih =>
    rw [ampMax_cons]
    exact max_le (h y (List.mem_cons_self y ys)) (ih fun x hx => h x (List.mem_cons_of_mem _ hx))

lemma ampMax_mem_or_zero (data : List ℚ) :
    ampMax data = 0 ∨ ∃ x ∈ data, ampMax data = |x| := by
  induction data with
  | nil => exact Or.inl rfl
  | cons y ys ih =>
    rw [ampMax_cons]
    rcases le_total |y| (ampMax ys) with h | h
    · rw [max_eq_right h]
      rcases ih with h0 | ⟨x, hx, he⟩
      · exact Or.inl h0
      · exact Or.inr ⟨x, List.mem_cons_of_mem _ hx, he⟩
    · rw [max_eq_left h]
      exact Or.inr ⟨y, List.mem_cons_self y ys, rfl⟩

lemma mem_exceedIdx {data : List ℚ} {frac : ℚ} {i : ℕ} :
    i ∈ exceedIdx data frac
      ↔ i < data.length ∧ frac * ampMax data < |data.getD i 0| := by
  simp [exceedIdx, List.mem_filter, List.mem_range]

lemma exceedIdx_pairwise (data : List ℚ) (frac : ℚ) :
    (exceedIdx data frac).Pairwise (· < ·) :=
  (List.pairwise_lt_range _).filter _

lemma head?_least {l : List ℕ} (hp : l.Pairwise (· < ·)) {a : ℕ}
    (ha : l.head? = some a) : a ∈ l ∧ ∀ b ∈ l, a ≤ b := by
  cases l with
  | nil => cases ha
  | cons x xs =>
    obtain rfl : x = a := by simpa using ha
    refine ⟨List.mem_cons_self x xs, fun b hb => ?_⟩
    rcases List.mem_cons.mp hb with rfl | hb
    · exact le_refl b
    · exact ((List.pairwise_cons.mp hp).1 b hb).le

lemma getLast?_greatest {l : List ℕ} (hp : l.Pairwise (· < ·)) {a : ℕ}
    (ha : l.getLast? = some a) : a ∈ l ∧ ∀ b ∈ l, b ≤ a := by
  induction l with
  | nil => cases ha
  | cons x xs ih =>
    cases xs with
    | nil =>
      obtain rfl : x = a := by simpa using ha
      refine ⟨List.mem_cons_self x [], fun b hb => ?_⟩
      rcases List.mem_cons.mp hb with rfl | hb
      · exact le_refl b
      · cases hb
    | cons y ys =>
      rw [List.getLast?_cons_cons] at ha
      obtain ⟨hmem, hle⟩ := ih ((List.pairwise_cons.mp hp).2) ha
      refine ⟨List.mem_cons_of_mem _ hmem, fun b hb => ?_⟩
      rcases List.mem_cons.mp hb with rfl | hb
      · exact ((List.pairwise_cons.mp hp).1 a hmem).le
      · exact hle b hb

lemma crop_signal_eq_some {time data : List ℚ} {frac : ℚ} {p : List ℚ × List ℚ}
    (h : crop_signal time data frac = some p) :
    ∃ i0 i1, (exceedIdx data frac).head? = some i0
      ∧ (exceedIdx data frac).getLast? = some i1
      ∧ p = ((time.drop i0).take (i1 + 1 - i0), (data.drop i0).take (i1 + 1 - i0)) := by
  unfold crop_signal at h
  rcases hh0 : (exceedIdx data frac).head? with _ | i0
  · rw [hh0] at h; simp at h
  · rcases hh1 : (exceedIdx data frac).getLast? with _ | i1
    · rw [hh0, hh1] at h; simp at h
    · rw [hh0, hh1] at h
      simp only [Option.some.injEq] at h
      exact ⟨i0, i1, rfl, rfl, h.symm⟩

lemma getD_take_drop (l : List ℚ) (a n k : ℕ) (hk : k < n) :
    ((l.drop a).take n).getD k 0 = l.getD (a + k) 0 := by
  rw [List.getD_eq_getElem?_getD, List.getD_eq_getElem?_getD, List.getElem?_take, if_pos hk,
    List.getElem?_drop]

lemma take_drop_sublist (l : List ℚ) (a n : ℕ) : List.Sublist ((l.drop a).take n) l :=
  (List.take_sublist n _).trans (List.drop_sublist a l)

lemma getD_mem_of_lt {l : List ℚ} {n : ℕ} (h : n < l.length) : l.getD n 0 ∈ l := by
  rw [List.getD_eq_getElem l 0 h]
  exact List.getElem_mem h

lemma foldl_if_append (P : ℕ → Prop) [DecidablePred P] (f : ℕ → ℚ) :
    ∀ (l : List ℕ) (acc : List ℚ),
      l.foldl (fun xs i => if P i then xs ++ [f i] else xs) acc
        = acc ++ (l.filter (fun i => decide (P i))).map f := by
  intro l
  induction l with
  | nil => intro acc; simp
  | cons x xs ih =>
    intro acc
    rw [List.foldl_cons]
    by_cases hx : P x
    · rw [if_pos hx, ih]
      simp [List.filter_cons, hx]
    · rw [if_neg hx, ih]
      simp [List.filter_cons, hx]

lemma processTrial_foldl (trialResults : List (Option (ℚ × ℚ))) :
    ∀ a b : List ℚ,
      trialResults.foldl processTrial (a, b)
        = (a ++ succeededModuli trialResults, b ++ succeededModuli trialResults) := by
  induction trialResults with
  | nil => intro a b; simp [succeededModuli]
  | cons r rs ih =>
    intro a b
    cases r with
    | none =>
      simp only [List.foldl_cons, processTrial, succeededModuli, List.filterMap_cons, id]
      exact ih a b
    | some fe =>
      simp only [List.foldl_cons, processTrial, succeededModuli, List.filterMap_cons, id,
        List.map_cons]
      rw [ih]
      simp [succeededModuli, List.append_assoc]

lemma processLength_spec (allE : List ℚ) (rs : List (Option (ℚ × ℚ))) :
    processLength allE rs = (allE ++ succeededModuli rs, succeededModuli rs) := by
  simpa using processTrial_foldl rs allE []

lemma lengthStep_spec (a : List ℚ) (b : List (Option ℚ)) (rs : List (Option (ℚ × ℚ))) :
    lengthStep (a, b) rs
      = (a ++ succeededModuli rs, b ++ [lengthRow (succeededModuli rs)]) := by
  simp [lengthStep, processLength_spec]

lemma aggregate_foldl (results : List (List (Option (ℚ × ℚ)))) :
    ∀ (a : List ℚ) (b : List (Option ℚ)),
      results.foldl lengthStep (a, b)
        = (a ++ (results.map succeededModuli).flatten,
           b ++ results.map (fun rs => lengthRow (succeededModuli rs))) := by
  induction results with
  | nil => intro a b; simp
  | cons rs rss ih =>
    intro a b
    rw [List.foldl_cons, lengthStep_spec, ih]
    simp [List.append_assoc]

/-- Claim C3: for every integer n_cross and rational period,
calc_frequency returns ((n_cross - 1) / 2) / period when n_cross > 1 and
period > 0, returns 0 when n_cross ≤ 1 or period ≤ 0, and is in all
cases nonnegative (the degenerate inputs produce 0, not an error). -/
theorem calc_frequency_spec (n : ℤ) (p : ℚ) :
    (1 < n → 0 < p → calc_frequency n p = ((n : ℚ) - 1) / 2 / p)
    ∧ ((n ≤ 1 ∨ p ≤ 0) → calc_frequency n p = 0)
    ∧ 0 ≤ calc_frequency n p := by
  simp only [calc_frequency]
  refine ⟨fun hn hp => by simp [hn, hp], fun hdeg => ?_, ?_⟩
  · split_ifs with h1 h2
    · rcases hdeg with h | h
      · omega
      · linarith
    · exact zero_div p
    · rfl
  · split_ifs with h1 h2
    · have hn2 : (2 : ℚ) ≤ (n : ℚ) := by exact_mod_cast h2
      have : (0 : ℚ) ≤ ((n : ℚ) - 1) / 2 := by linarith [div_nonneg (by linarith : (0:ℚ) ≤ (n:ℚ) - 1) (by norm_num : (0:ℚ) ≤ 2)]
      exact div_nonneg this h1.le
    · simp
    · exact le_refl 0

/-- Witness for calc_frequency_spec at n = 5, period = 2 (and the
degenerate branch at n = 0). -/
theorem calc_frequency_spec_witness :
    calc_frequency 5 2 = ((5 : ℚ) - 1) / 2 / 2
    ∧ calc_frequency 0 2 = 0
    ∧ 0 ≤ calc_frequency 5 2 :=
  ⟨(calc_frequency_spec 5 2).1 (by norm_num) (by norm_num),
   (calc_frequency_spec 0 2).2.1 (Or.inl (by norm_num)),
   (calc_frequency_spec 5 2).2.2⟩

/-- Claim C4: with moment of inertia I ≠ 0, calc_youngs_modulus equals
((f / 0.56)^2 * rho * b * h * L^4) / I divided by 1e9, and the moment
of inertia used by the pipeline is b * h^3 / 12, a function of the
geometry alone (I_moment takes no frequency argument). -/
theorem calc_youngs_modulus_spec (f b h rho I L : ℚ) (hI : I ≠ 0) :
    calc_youngs_modulus f b h rho I L
      = some ((((f / 0.56) ^ 2 * rho * b * h * L ^ 4) / I) / 1e9)
    ∧ I_moment b h = b * h ^ 3 / 12 := by
  constructor
  · simp only [calc_youngs_modulus, if_neg hI]
    exact congrArg some (by ring)
  · rfl

/-- Witness for calc_youngs_modulus_spec at concrete inputs. -/
theorem calc_youngs_modulus_spec_witness :
    calc_youngs_modulus 1 2 3 4 5 6
      = some (((((1 : ℚ) / 0.56) ^ 2 * 4 * 2 * 3 * 6 ^ 4) / 5) / 1e9)
    ∧ I_moment 2 3 = 2 * 3 ^ 3 / 12 :=
  calc_youngs_modulus_spec 1 2 3 4 5 6 (by norm_num)

/-- Claim C9, counterexample: at moment of inertia I = 0 the Python code
performs a float division by zero and raises ZeroDivisionError (embedded
as none); it does not return a value. -/
theorem calc_youngs_modulus_zero_I_raises :
    calc_youngs_modulus 1 1 1 1 0 1 = none
    ∧ (calc_youngs_modulus 1 1 1 1 0 1).isSome = false := by
  norm_num [calc_youngs_modulus]

/-- Claim C9 as amended: calc_youngs_modulus raises exactly when the
moment of inertia is 0; for I ≠ 0 it always returns a value, and in
particular returns 0 (not an error) when the frequency is 0. -/
theorem calc_youngs_modulus_total (f b h rho I L : ℚ) :
    (I = 0 → calc_youngs_modulus f b h rho I L = none)
    ∧ (I ≠ 0 → ∃ v, calc_youngs_modulus f b h rho I L = some v)
    ∧ (I ≠ 0 → f = 0 → calc_youngs_modulus f b h rho I L = some 0) := by
  constructor
  · intro h0
    simp [calc_youngs_modulus, h0]
  constructor
  · intro hI
    refine ⟨((f / 0.56) ^ 2 * (rho * b * h) * L ^ 4) / I / 1e9, ?_⟩
    simp only [calc_youngs_modulus, if_neg hI]
  · intro hI hf
    subst hf
    simp only [calc_youngs_modulus, if_neg hI]
    norm_num

/-- Witness for calc_youngs_modulus_total at I = 0 and at I = 5, f = 0. -/
theorem calc_youngs_modulus_total_witness :
    calc_youngs_modulus 1 1 1 1 0 1 = none
    ∧ calc_youngs_modulus 0 1 1 1 5 1 = some 0 :=
  ⟨(calc_youngs_modulus_total 1 1 1 1 0 1).1 rfl,
   (calc_youngs_modulus_total 0 1 1 1 5 1).2.2 (by norm_num) rfl⟩

/-- Claim C7: the emitted per-length average rows are exactly the
unweighted arithmetic means of the modulus values of the non-skipped
trials of each length (emitted only when that set is non-empty), and
the overall average is the unweighted mean over all non-skipped trials
across all lengths (emitted only when at least one trial succeeded). -/
theorem aggregate_spec (results : List (List (Option (ℚ × ℚ)))) :
    (aggregate results).1 = results.map (fun rs => meanOpt (succeededModuli rs))
    ∧ (aggregate results).2 = meanOpt ((results.map succeededModuli).flatten) := by
  unfold aggregate
  rw [aggregate_foldl results [] []]
  constructor
  · simp [lengthRow, meanOpt]
  · simp [lengthRow, meanOpt]

/-- Claim C2, code evaluated at the failing input: one length with two
processed trials, one with frequency 0 and modulus 0 and one with
frequency 50 and modulus 4.  The code emits 2 as both the length average
and the overall average — the zero-frequency trial IS included — whereas
excluding it would give 4. -/
theorem aggregate_includes_zero_frequency_trial :
    (aggregate [[some (0, 0), some (50, 4)]]).1 = [some 2]
    ∧ (aggregate [[some (0, 0), some (50, 4)]]).2 = some 2
    ∧ (2 : ℚ) ≠ 4 := by
  refine ⟨?_, ?_, by norm_num⟩ <;>
    · norm_num [aggregate, lengthStep, processLength, processTrial, lengthRow, List.foldl]
      simp

/-- Claim C5: on equal-length inputs, find_crossings returns exactly the
times time[i], in ascending index order, for the adjacent indices i with
signal[i-1] * signal[i] strictly negative (the grid time of the later
sample, no interpolation); a signal of length < 2 yields the empty list;
and no index counted as a crossing has an exactly-zero sample on either
side of the pair. -/
theorem find_crossings_spec (time data : List ℚ) (hlen : time.length = data.length) :
    find_crossings time data = (crossingIdx data).map (fun i => time.getD i 0)
    ∧ (data.length < 2 → find_crossings time data = [])
    ∧ ∀ i ∈ crossingIdx data, 1 ≤ i ∧ data.getD (i - 1) 0 ≠ 0 ∧ data.getD i 0 ≠ 0 := by
  have hmain : find_crossings time data = (crossingIdx data).map (fun i => time.getD i 0) := by
    unfold find_crossings crossingIdx
    simpa using
      foldl_if_append (fun i => 1 ≤ i ∧ data.getD (i - 1) 0 * data.getD i 0 < 0)
        (fun i => time.getD i 0) (List.range data.length) []
  refine ⟨hmain, fun hlt => ?_, fun i hi => ?_⟩
  · rw [hmain]
    have hnil : crossingIdx data = [] := by
      rw [crossingIdx, List.filter_eq_nil_iff]
      intro i hi
      rw [List.mem_range] at hi
      simp only [decide_eq_true_eq]
      rintro ⟨h1, -⟩
      omega
    rw [hnil, List.map_nil]
  · rw [crossingIdx, List.mem_filter, decide_eq_true_eq] at hi
    obtain ⟨-, h1, hprod⟩ := hi
    refine ⟨h1, fun h0 => ?_, fun h0 => ?_⟩
    · rw [h0, zero_mul] at hprod; exact lt_irrefl 0 hprod
    · rw [h0, mul_zero] at hprod; exact lt_irrefl 0 hprod

/-- Witness for find_crossings_spec on time [0,1,2,3], signal [1,-1,2,0]:
crossings at indices 1 and 2 (the zero final sample is not counted),
hence the times [1, 2]. -/
theorem find_crossings_spec_witness :
    find_crossings [0, 1, 2, 3] [1, -1, 2, 0]
        = (crossingIdx [1, -1, 2, 0]).map (fun i => List.getD [0, 1, 2, 3] i 0)
    ∧ find_crossings [0, 1, 2, 3] [1, -1, 2, 0] = [1, 2] :=
  ⟨(find_crossings_spec [0, 1, 2, 3] [1, -1, 2, 0] rfl).1,
   by norm_num [find_crossings, List.range_succ]⟩

/-- Claim C6: when at least one sample strictly exceeds the threshold
frac * max(|signal|), crop_signal returns exactly the contiguous
inclusive sub-range of both sequences from the first exceeding index i0
to the last exceeding index i1, both endpoints included. -/
theorem crop_signal_range (time data : List ℚ) (frac : ℚ)
    (hex : ∃ i, i < data.length ∧ frac * ampMax data < |data.getD i 0|) :
    ∃ i0 i1, i0 ≤ i1 ∧ i1 < data.length
      ∧ frac * ampMax data < |data.getD i0 0|
      ∧ frac * ampMax data < |data.getD i1 0|
      ∧ (∀ j, j < data.length → frac * ampMax data < |data.getD j 0| → i0 ≤ j ∧ j ≤ i1)
      ∧ crop_signal time data frac
          = some ((time.drop i0).take (i1 + 1 - i0), (data.drop i0).take (i1 + 1 - i0)) := by
  obtain ⟨i, hi, hgt⟩ := hex
  have hmem : i ∈ exceedIdx data frac := mem_exceedIdx.mpr ⟨hi, hgt⟩
  have hne : exceedIdx data frac ≠ [] := by
    intro h
    rw [h] at hmem
    cases hmem
  have hh0 : (exceedIdx data frac).head? = some ((exceedIdx data frac).head hne) :=
    List.head?_eq_head hne
  have hh1 : (exceedIdx data frac).getLast? = some ((exceedIdx data frac).getLast hne) :=
    List.getLast?_eq_getLast_of_ne_nil hne
  obtain ⟨h0mem, h0min⟩ := head?_least (exceedIdx_pairwise data frac) hh0
  obtain ⟨h1mem, h1max⟩ := getLast?_greatest (exceedIdx_pairwise data frac) hh1
  obtain ⟨h0len, h0gt⟩ := mem_exceedIdx.mp h0mem
  obtain ⟨h1len, h1gt⟩ := mem_exceedIdx.mp h1mem
  refine ⟨_, _, h0min _ h1mem, h1len, h0gt, h1gt, fun j hj hgtj => ?_, ?_⟩
  · have hjm : j ∈ exceedIdx data frac := mem_exceedIdx.mpr ⟨hj, hgtj⟩
    exact ⟨h0min _ hjm, h1max _ hjm⟩
  · unfold crop_signal
    rw [hh0, hh1]

/-- Witness for crop_signal_range on time [0,1,2], signal [0,5,0],
frac 1/10: the only exceeding index is 1, so the crop is ([1], [5]). -/
theorem crop_signal_range_witness :
    ∃ i0 i1, i0 ≤ i1 ∧ i1 < ([0, 5, 0] : List ℚ).length
      ∧ (1/10 : ℚ) * ampMax [0, 5, 0] < |List.getD [0, 5, 0] i0 0|
      ∧ (1/10 : ℚ) * ampMax [0, 5, 0] < |List.getD [0, 5, 0] i1 0|
      ∧ (∀ j, j < ([0, 5, 0] : List ℚ).length →
          (1/10 : ℚ) * ampMax [0, 5, 0] < |List.getD [0, 5, 0] j 0| → i0 ≤ j ∧ j ≤ i1)
      ∧ crop_signal [0, 1, 2] [0, 5, 0] (1/10)
          = some ((List.drop i0 [0, 1, 2]).take (i1 + 1 - i0),
                  (List.drop i0 [0, 5, 0]).take (i1 + 1 - i0)) :=
  crop_signal_range [0, 1, 2] [0, 5, 0] (1/10)
    ⟨1, by norm_num, by norm_num [ampMax]⟩

/-- Claim C1, counterexample: on the all-zero signal [0, 0] with
frac = 1/10 no sample strictly exceeds the threshold; the code indexes
the empty idx array and raises IndexError (embedded as none) instead of
returning the zero-length trace the claim describes. -/
theorem crop_signal_all_zero_raises :
    crop_signal [0, 1] [0, 0] (1/10) = none
    ∧ crop_signal [0, 1] [0, 0] (1/10) ≠ some ([], []) := by
  have h : crop_signal [0, 1] [0, 0] (1/10) = none := by
    norm_num [crop_signal, exceedIdx, ampMax, List.range_succ]
  exact ⟨h, by rw [h]; simp⟩

/-- Claim C1 as amended: whenever no sample strictly exceeds the
threshold frac * max(|signal|) (e.g. an all-zero signal, or frac = 1),
crop_signal does not return a zero-length trace: the lookup idx[0] on
the empty index array raises IndexError, embedded here as none. -/
theorem crop_signal_no_exceed (time data : List ℚ) (frac : ℚ)
    (h : ∀ i, i < data.length → ¬ frac * ampMax data < |data.getD i 0|) :
    crop_signal time data frac = none := by
  have hidx : exceedIdx data frac = [] := by
    rw [exceedIdx, List.filter_eq_nil_iff]
    intro i hi
    rw [List.mem_range] at hi
    simpa using h i hi
  simp [crop_signal, hidx]

/-- Witness for crop_signal_no_exceed on the all-zero signal. -/
theorem crop_signal_no_exceed_witness :
    crop_signal [0, 1] [0, 0] (1/10) = none :=
  crop_signal_no_exceed [0, 1] [0, 0] (1/10)
    (by
      intro i hi
      norm_num at hi
      interval_cases i <;> norm_num [ampMax])

/-- Claim C10: on equal-length inputs, a successful crop returns lists of
equal length cut from the same contiguous index range of the two inputs
(so the time/sample pairing is preserved), and a strictly increasing
input time sequence yields a strictly increasing output time sequence. -/
theorem crop_signal_pairing (time data : List ℚ) (frac : ℚ) (ct cd : List ℚ)
    (hlen : time.length = data.length)
    (h : crop_signal time data frac = some (ct, cd)) :
    ct.length = cd.length
    ∧ (∃ i0 n, ct = (time.drop i0).take n ∧ cd = (data.drop i0).take n)
    ∧ (time.Pairwise (· < ·) → ct.Pairwise (· < ·)) := by
  obtain ⟨i0, i1, hh0, hh1, hp⟩ := crop_signal_eq_some h
  obtain ⟨hct, hcd⟩ := Prod.mk.injEq .. ▸ hp
  refine ⟨?_, ⟨i0, i1 + 1 - i0, hct, hcd⟩, fun hmono => ?_⟩
  · rw [hct, hcd]
    simp [List.length_take, List.length_drop, hlen]
  · rw [hct]
    exact hmono.sublist (take_drop_sublist time i0 (i1 + 1 - i0))

/-- Witness for crop_signal_pairing on time [0,1,2], signal [0,5,0],
frac 1/10. -/
theorem crop_signal_pairing_witness :
    ([1] : List ℚ).length = ([5] : List ℚ).length
    ∧ (∃ i0 n, ([1] : List ℚ) = (List.drop i0 [0, 1, 2]).take n
        ∧ ([5] : List ℚ) = (List.drop i0 [0, 5, 0]).take n)
    ∧ (([0, 1, 2] : List ℚ).Pairwise (· < ·) → ([1] : List ℚ).Pairwise (· < ·)) :=
  crop_signal_pairing [0, 1, 2] [0, 5, 0] (1/10) [1] [5] rfl
    (by norm_num [crop_signal, exceedIdx, ampMax, List.range_succ])

/-- Claim C8: cropping is idempotent: whenever crop_signal is defined and
returns (ct, cd), applying crop_signal with the same frac to (ct, cd)
returns (ct, cd) unchanged.  The key fact is that the peak sample always
lies inside the cropped range, so the threshold is unchanged. -/
theorem crop_signal_idempotent (time data : List ℚ) (frac : ℚ) (ct cd : List ℚ)
    (h : crop_signal time data frac = some (ct, cd)) :
    crop_signal ct cd frac = some (ct, cd) := by
  obtain ⟨i0, i1, hh0, hh1, hp⟩ := crop_signal_eq_some h
  obtain ⟨hct, hcd⟩ := Prod.mk.injEq .. ▸ hp
  obtain ⟨h0mem, h0min⟩ := head?_least (exceedIdx_pairwise data frac) hh0
  obtain ⟨h1mem, h1max⟩ := getLast?_greatest (exceedIdx_pairwise data frac) hh1
  obtain ⟨h0len, h0gt⟩ := mem_exceedIdx.mp h0mem
  obtain ⟨h1len, h1gt⟩ := mem_exceedIdx.mp h1mem
  have h01 : i0 ≤ i1 := h0min _ h1mem
  set M := ampMax data with hM
  have hle : |data.getD i0 0| ≤ M := le_ampMax (getD_mem_of_lt h0len)
  have hMpos : 0 < M := by
    by_contra hneg
    push_neg at hneg
    have hM0 : M = 0 := le_antisymm hneg (ampMax_nonneg data)
    rw [hM0, mul_zero] at h0gt
    have h2 : |data.getD i0 0| ≤ 0 := hM0 ▸ hle
    linarith
  have hfM : frac * M < M := lt_of_lt_of_le h0gt hle
  have hcdlen : cd.length = i1 + 1 - i0 := by
    rw [hcd, List.length_take, List.length_drop]
    omega
  have hcdget : ∀ k, k < i1 + 1 - i0 → cd.getD k 0 = data.getD (i0 + k) 0 := by
    intro k hk
    rw [hcd]
    exact getD_take_drop data i0 (i1 + 1 - i0) k hk
  have hcdsub : List.Sublist cd data := hcd ▸ take_drop_sublist data i0 (i1 + 1 - i0)
  have hup : ampMax cd ≤ M :=
    ampMax_le (ampMax_nonneg data) (fun x hx => le_ampMax (hcdsub.subset hx))
  have hlow : M ≤ ampMax cd := by
    rcases ampMax_mem_or_zero data with h0 | ⟨x, hx, hxe⟩
    · exact absurd h0 (ne_of_gt hMpos)
    · obtain ⟨m, hm, hme⟩ := List.mem_iff_getElem.mp hx
      have hmgetD : data.getD m 0 = x := by rw [List.getD_eq_getElem data 0 hm, hme]
      have hmmem : m ∈ exceedIdx data frac :=
        mem_exceedIdx.mpr ⟨hm, by rw [hmgetD, ← hxe]; exact hfM⟩
      have hm0 : i0 ≤ m := h0min _ hmmem
      have hm1 : m ≤ i1 := h1max _ hmmem
      have hk : m - i0 < i1 + 1 - i0 := by omega
      have hval : cd.getD (m - i0) 0 = data.getD m 0 := by
        rw [hcdget _ hk]
        congr 1
        omega
      have hmem2 : cd.getD (m - i0) 0 ∈ cd := getD_mem_of_lt (by rw [hcdlen]; exact hk)
      calc M = |x| := hxe
        _ = |cd.getD (m - i0) 0| := by rw [hval, hmgetD]
        _ ≤ ampMax cd := le_ampMax hmem2
  have hMcd : ampMax cd = M := le_antisymm hup hlow
  have hcd0 : 0 ∈ exceedIdx cd frac := by
    refine mem_exceedIdx.mpr ⟨by rw [hcdlen]; omega, ?_⟩
    rw [hMcd, hcdget 0 (by omega), Nat.add_zero]
    exact h0gt
  have hcdlast : i1 - i0 ∈ exceedIdx cd frac := by
    refine mem_exceedIdx.mpr ⟨by rw [hcdlen]; omega, ?_⟩
    rw [hMcd, hcdget (i1 - i0) (by omega), show i0 + (i1 - i0) = i1 by omega]
    exact h1gt
  have hne : exceedIdx cd frac ≠ [] := by
    intro hnil
    rw [hnil] at hcd0
    cases hcd0
  have hh0' : (exceedIdx cd frac).head? = some ((exceedIdx cd frac).head hne) :=
    List.head?_eq_head hne
  have hh1' : (exceedIdx cd frac).getLast? = some ((exceedIdx cd frac).getLast hne) :=
    List.getLast?_eq_getLast_of_ne_nil hne
  obtain ⟨h0mem2, h0min2⟩ := head?_least (exceedIdx_pairwise cd frac) hh0'
  obtain ⟨h1mem2, h1max2⟩ := getLast?_greatest (exceedIdx_pairwise cd frac) hh1'
  have hhead0 : (exceedIdx cd frac).head hne = 0 := Nat.le_zero.mp (h0min2 _ hcd0)
  have hlastval : (exceedIdx cd frac).getLast hne = i1 - i0 := by
    have hub : (exceedIdx cd frac).getLast hne < cd.length := (mem_exceedIdx.mp h1mem2).1
    have hlb : i1 - i0 ≤ (exceedIdx cd frac).getLast hne := h1max2 _ hcdlast
    rw [hcdlen] at hub
    omega
  have hA : (exceedIdx cd frac).head? = some 0 := by rw [hh0', hhead0]
  have hB : (exceedIdx cd frac).getLast? = some (i1 - i0) := by rw [hh1', hlastval]
  have hctlen : ct.length ≤ i1 + 1 - i0 := by
    rw [hct, List.length_take]
    exact min_le_left _ _
  have hgoal : crop_signal ct cd frac
      = some ((ct.drop 0).take (i1 - i0 + 1 - 0), (cd.drop 0).take (i1 - i0 + 1 - 0)) := by
    unfold crop_signal
    rw [hA, hB]
  rw [hgoal, List.drop_zero, List.drop_zero, show i1 - i0 + 1 - 0 = i1 + 1 - i0 by omega,
    List.take_of_length_le hctlen, List.take_of_length_le (le_of_eq hcdlen)]

/-- Witness for crop_signal_idempotent: cropping time [0,1,2], signal
[0,5,0] at frac 1/10 gives ([1], [5]); cropping that result again gives
the same pair. -/
theorem crop_signal_idempotent_witness :
    crop_signal [1] [5] (1/10) = some ([1], [5]) :=
  crop_signal_idempotent [0, 1, 2] [0, 5, 0] (1/10) [1] [5]
    (by norm_num [crop_signal, exceedIdx, ampMax, List.range_succ])

end VibrationalAnalysis
